import Mathlib

/-!
Verification of the recommender-systems toolkit (similarity top-K sparsification,
recommendation/evaluation engine, BPR matrix-factorization trainer).

The development shallowly embeds the relevant program parts:
* matrices are modelled densely as `List (List ℚ)` (scipy sparse matrices are
  value-identical to their dense counterparts for all operations used here);
* `numpy.argsort` is modelled as the stable ascending sort of indices by value
  (ties broken by smaller index first), realised by `List.insertionSort` with a
  lexicographic key, which is the unique sorted permutation for that key;
* randomness (`numpy.random.*`, `random.sample`) is modelled by explicit draw
  oracles supplied as arguments;
* fallible code paths (`raise ValueError`) return `Except String`.
-/

namespace RecSys

/-! ### Stable argsort infrastructure (models `numpy.argsort`) -/

section Argsort

variable {α : Type} [LinearOrder α]

/-- Lexicographic comparison key used to model a stable ascending `argsort` of the
value list `v`: position `i` comes before `j` when its value is smaller, or the
values are equal and `i ≤ j`. -/
def keyLe (d : α) (v : List α) (i j : Nat) : Prop :=
  v.getD i d < v.getD j d ∨ (v.getD i d = v.getD j d ∧ i ≤ j)

/-- Strict "greater" companion of `keyLe`: position `i` holds a strictly larger
value than `j`, or an equal value at a larger index. -/
def keyGt (d : α) (v : List α) (i j : Nat) : Prop :=
  v.getD j d < v.getD i d ∨ (v.getD i d = v.getD j d ∧ j < i)

instance (d : α) (v : List α) : DecidableRel (keyLe d v) := fun i j => by
  unfold keyLe; exact inferInstance

instance (d : α) (v : List α) : DecidablePred (fun p : Nat × Nat => keyGt d v p.1 p.2) :=
  fun p => by unfold keyGt; exact inferInstance

instance (d : α) (v : List α) (i j : Nat) : Decidable (keyGt d v i j) := by
  unfold keyGt; exact inferInstance

instance (d : α) (v : List α) : IsTotal Nat (keyLe d v) := by
  constructor
  intro i j
  rcases lt_trichotomy (v.getD i d) (v.getD j d) with h | h | h
  · exact Or.inl (Or.inl h)
  · rcases Nat.le_total i j with hij | hij
    · exact Or.inl (Or.inr ⟨h, hij⟩)
    · exact Or.inr (Or.inr ⟨h.symm, hij⟩)
  · exact Or.inr (Or.inl h)

instance (d : α) (v : List α) : IsTrans Nat (keyLe d v) := by
  constructor
  intro i j k hij hjk
  rcases hij with h1 | ⟨h1, h1'⟩ <;> rcases hjk with h2 | ⟨h2, h2'⟩
  · exact Or.inl (h1.trans h2)
  · exact Or.inl (h2 ▸ h1)
  · exact Or.inl (h1 ▸ h2)
  · exact Or.inr ⟨h1.trans h2, h1'.trans h2'⟩

theorem keyLe_antisymm {d : α} {v : List α} {i j : Nat}
    (h1 : keyLe d v i j) (h2 : keyLe d v j i) : i = j := by
  rcases h1 with h1 | ⟨h1, h1'⟩ <;> rcases h2 with h2 | ⟨h2, h2'⟩
  · exact absurd (h1.trans h2) (lt_irrefl _)
  · exact absurd h1 (h2 ▸ lt_irrefl _)
  · exact absurd h2 (h1 ▸ lt_irrefl _)
  · exact Nat.le_antisymm h1' h2'

theorem keyGt_iff_not_keyLe {d : α} {v : List α} {i j : Nat} :
    keyGt d v i j ↔ ¬ keyLe d v i j := by
  unfold keyGt keyLe
  constructor
  · rintro (h | ⟨h, hji⟩) (h2 | ⟨h2, hij⟩)
    · exact absurd (h.trans h2) (lt_irrefl _)
    · exact absurd h (h2 ▸ lt_irrefl _)
    · exact absurd h2 (h ▸ lt_irrefl _)
    · exact absurd (Nat.lt_of_lt_of_le hji hij) (lt_irrefl _)
  · intro hn
    rcases lt_trichotomy (v.getD j d) (v.getD i d) with h | h | h
    · exact Or.inl h
    · refine Or.inr ⟨h.symm, ?_⟩
      by_contra hnlt
      exact hn (Or.inr ⟨h.symm, Nat.le_of_not_lt hnlt⟩)
    · exact absurd (Or.inl h) hn

/-- Model of `numpy.argsort(v)`: the indices `0, …, v.length - 1` sorted in
ascending order of their values (stable: equal values keep index order). -/
def argsort (d : α) (v : List α) : List Nat :=
  List.insertionSort (keyLe d v) (List.range v.length)

theorem argsort_perm (d : α) (v : List α) : (argsort d v).Perm (List.range v.length) :=
  List.perm_insertionSort _ _

theorem argsort_sorted (d : α) (v : List α) : (argsort d v).Pairwise (keyLe d v) :=
  List.sorted_insertionSort _ _

theorem argsort_nodup (d : α) (v : List α) : (argsort d v).Nodup :=
  (argsort_perm d v).nodup_iff.mpr (List.nodup_range _)

theorem argsort_length (d : α) (v : List α) : (argsort d v).length = v.length := by
  simpa using (argsort_perm d v).length_eq

theorem mem_argsort (d : α) (v : List α) {i : Nat} : i ∈ argsort d v ↔ i < v.length := by
  rw [(argsort_perm d v).mem_iff, List.mem_range]

/-- Number of positions holding a strictly larger value than position `j`
(an equal value at a larger index also counts): the 0-based rank of `j` in
the descending order used by top-K selection. -/
def rankDesc (d : α) (v : List α) (j : Nat) : Nat :=
  ((List.range v.length).filter (fun i => decide (keyGt d v i j))).length

theorem keyLe_refl (d : α) (v : List α) (i : Nat) : keyLe d v i i :=
  Or.inr ⟨rfl, Nat.le_refl i⟩

theorem mem_take_iff_rank_aux (d : α) (v : List α) :
    ∀ (l : List Nat), l.Pairwise (fun a b => keyLe d v b a) → l.Nodup →
      ∀ j ∈ l, ∀ K : Nat,
        (j ∈ l.take K ↔ (l.filter (fun i => decide (keyGt d v i j))).length < K) := by
  intro l
  induction l with
  | nil => intro _ _ j hj; exact absurd hj (List.not_mem_nil j)
  | cons a t ih =>
    intro hp hn j hj K
    have ha : ∀ x ∈ t, keyLe d v x a := (List.pairwise_cons.mp hp).1
    have hpt : t.Pairwise (fun a b => keyLe d v b a) := (List.pairwise_cons.mp hp).2
    have hna : a ∉ t := (List.nodup_cons.mp hn).1
    have hnt : t.Nodup := (List.nodup_cons.mp hn).2
    rcases List.mem_cons.mp hj with rfl | hjt
    · have hq : ∀ x ∈ (j :: t), decide (keyGt d v x j) = false := by
        intro x hx
        rcases List.mem_cons.mp hx with rfl | hxt
        · simp only [decide_eq_false_iff_not]
          rw [keyGt_iff_not_keyLe]
          exact not_not_intro (keyLe_refl d v x)
        · simp only [decide_eq_false_iff_not]
          rw [keyGt_iff_not_keyLe]
          exact not_not_intro (ha x hxt)
      have hfil : (j :: t).filter (fun i => decide (keyGt d v i j)) = [] :=
        List.filter_eq_nil_iff.mpr (fun x hx => by simp [hq x hx])
      rw [hfil]
      cases K with
      | zero => simp
      | succ K => simp [List.take_succ_cons]
    · have hja : j ≠ a := fun h => hna (h ▸ hjt)
      have hgta : keyGt d v a j := by
        rw [keyGt_iff_not_keyLe]
        intro hle
        exact hja (keyLe_antisymm (ha j hjt) hle)
      have hfil : (a :: t).filter (fun i => decide (keyGt d v i j)) =
          a :: t.filter (fun i => decide (keyGt d v i j)) := by
        rw [List.filter_cons_of_pos (by simpa using hgta)]
      rw [hfil]
      cases K with
      | zero => simp
      | succ K =>
        rw [List.take_succ_cons, List.mem_cons]
        simp only [hja, false_or, List.length_cons, Nat.succ_lt_succ_iff]
        exact ih hpt hnt j hjt K

theorem mem_drop_iff_mem_reverse_take {β : Type} (l : List β) (m : Nat) (x : β) :
    x ∈ l.drop m ↔ x ∈ l.reverse.take (l.length - m) := by
  have h1 : l.reverse = (l.drop m).reverse ++ (l.take m).reverse := by
    rw [← List.reverse_append, List.take_append_drop]
  have h2 : l.reverse.take (l.length - m) = (l.drop m).reverse := by
    rw [h1, List.take_left']
    simp [List.length_drop]
  rw [h2, List.mem_reverse]

theorem rankDesc_lt_length (d : α) (v : List α) {j : Nat} (hj : j < v.length) :
    rankDesc d v j < v.length := by
  unfold rankDesc
  have hsub : ((List.range v.length).filter (fun i => decide (keyGt d v i j))).Sublist
      (List.range v.length) := List.filter_sublist _
  have hle : ((List.range v.length).filter (fun i => decide (keyGt d v i j))).length ≤
      v.length := by simpa using hsub.length_le
  rcases Nat.lt_or_ge (((List.range v.length).filter (fun i => decide (keyGt d v i j))).length)
      v.length with h | h
  · exact h
  · exfalso
    have heq : (List.range v.length).filter (fun i => decide (keyGt d v i j)) =
        List.range v.length := hsub.eq_of_length (Nat.le_antisymm (by simpa using hsub.length_le) (by simpa using h))
    have hjmem : j ∈ (List.range v.length).filter (fun i => decide (keyGt d v i j)) := by
      rw [heq]; exact List.mem_range.mpr hj
    have := List.of_mem_filter hjmem
    rw [decide_eq_true_iff, keyGt_iff_not_keyLe] at this
    exact this (keyLe_refl d v j)

/-- Core characterization of top-K selection: an index `j` survives in the last
`k` entries of the ascending argsort (what `idx_sorted[-k:]` keeps and
`idx_sorted[:-k]` discards, for `k ≥ 1`) iff fewer than `k` positions rank
strictly above it. -/
theorem mem_drop_argsort_iff_rank (d : α) (v : List α) {j : Nat} (hj : j < v.length)
    (k : Nat) : j ∈ (argsort d v).drop (v.length - k) ↔ rankDesc d v j < k := by
  have hlen : (argsort d v).length = v.length := argsort_length d v
  have hbridge := mem_drop_iff_mem_reverse_take (argsort d v) (v.length - k) j
  rw [hlen] at hbridge
  rw [hbridge]
  have hrevp : ((argsort d v).reverse).Pairwise (fun a b => keyLe d v b a) :=
    List.pairwise_reverse.mpr (argsort_sorted d v)
  have hrevn : ((argsort d v).reverse).Nodup := List.nodup_reverse.mpr (argsort_nodup d v)
  have hjmem : j ∈ (argsort d v).reverse := by
    rw [List.mem_reverse, mem_argsort]; exact hj
  have hmain := mem_take_iff_rank_aux d v ((argsort d v).reverse) hrevp hrevn j hjmem
      (v.length - (v.length - k))
  rw [hmain]
  have hperm : ((argsort d v).reverse).Perm (List.range v.length) :=
    ((argsort d v).reverse_perm).trans (argsort_perm d v)
  have hfeq : (((argsort d v).reverse).filter (fun i => decide (keyGt d v i j))).length =
      rankDesc d v j := (hperm.filter _).length_eq
  rw [hfeq]
  have hrk := rankDesc_lt_length d v hj
  rcases le_or_lt k v.length with hk | hk
  · rw [Nat.sub_sub_self hk]
  · have : v.length - (v.length - k) = v.length := by omega
    rw [this]
    constructor
    · intro _; omega
    · intro _; exact hrk

end Argsort

/-! ### Function `similarityMatrixTopK` (Recommender.py, lines 33–90)

The function operates columnwise on a square weight matrix. We model the dense
path on a matrix given as its list of columns, and the sparse path on one
column given by its stored COO entries (row indices and values, in data order,
which for canonical scipy matrices is ascending row order within the column). -/

/-- Positions zeroed by the dense path: `not_top_k = idx_sorted[:-k, :]`.
Python slicing `l[:-k]` is the whole list minus its last `k` elements when
`k ≥ 1`, but the empty list when `k = 0` (`[:-0]` is `[:0]`). -/
def notTopK (k : Nat) (c : List ℚ) : List Nat :=
  if k = 0 then [] else (argsort 0 c).take (c.length - k)

/-- Dense path of `similarityMatrixTopK` on one column:
`W[not_top_k, col] = 0.0` zeroes the non-top-k positions, all others keep
their original value. -/
def denseColTopK (k : Nat) (c : List ℚ) : List ℚ :=
  (List.range c.length).map (fun i => if i ∈ notTopK k c then 0 else c.getD i 0)

/-- Dense path of `similarityMatrixTopK` on the whole matrix (columnwise). -/
def similarityMatrixTopKDense (k : Nat) (cols : List (List ℚ)) : List (List ℚ) :=
  cols.map (denseColTopK k)

/-- Entry positions kept by the sparse path: `top_k_idx = idx_sorted[-k:]`,
which is the whole list when `k = 0` (`[-0:]` is `[0:]`) and the last
`min k len` sorted positions otherwise. -/
def sparseTopKIdx (k : Nat) (vals : List ℚ) : List Nat :=
  if k = 0 then argsort 0 vals else (argsort 0 vals).drop (vals.length - k)

/-- Sparse path of `similarityMatrixTopK` on one column: the kept stored
entries, as (row, value) pairs (`values.extend(dataValue[top_k_idx])`,
`rows.extend(dataRow[top_k_idx])`). -/
def sparseColTopK (k : Nat) (rows : List Nat) (vals : List ℚ) : List (Nat × ℚ) :=
  (sparseTopKIdx k vals).map (fun p => (rows.getD p 0, vals.getD p 0))

/-- Number of nonzero entries of a (dense) column. -/
def countNZ (c : List ℚ) : Nat :=
  ((List.range c.length).filter (fun i => decide (c.getD i 0 ≠ 0))).length

/-- Rank of position `i` among the *nonzero* entries of column `c`: how many
nonzero positions hold a strictly larger value (or an equal value at a larger
row index). -/
def rankDescNZ (c : List ℚ) (i : Nat) : Nat :=
  ((List.range c.length).filter
    (fun p => decide (c.getD p 0 ≠ 0 ∧ keyGt (0 : ℚ) c p i))).length

theorem denseColTopK_getD {k : Nat} {c : List ℚ} {i : Nat} (hi : i < c.length) :
    (denseColTopK k c).getD i 0 = if i ∈ notTopK k c then 0 else c.getD i 0 := by
  unfold denseColTopK
  rw [List.getD_eq_getElem?_getD, List.getElem?_map, List.getElem?_range hi]
  rfl

theorem notMem_notTopK_iff {k : Nat} (hk : 1 ≤ k) {c : List ℚ} {i : Nat}
    (hi : i < c.length) :
    i ∉ notTopK k c ↔ i ∈ (argsort 0 c).drop (c.length - k) := by
  have hk0 : k ≠ 0 := Nat.one_le_iff_ne_zero.mp hk
  unfold notTopK
  rw [if_neg hk0]
  have hsplit : (argsort 0 c).take (c.length - k) ++ (argsort 0 c).drop (c.length - k) =
      argsort 0 c := List.take_append_drop _ _
  have hnd : ((argsort 0 c).take (c.length - k) ++
      (argsort 0 c).drop (c.length - k)).Nodup := by
    rw [hsplit]; exact argsort_nodup 0 c
  have hdisj := (List.nodup_append.mp hnd).2.2
  have hmem : i ∈ (argsort 0 c).take (c.length - k) ∨
      i ∈ (argsort 0 c).drop (c.length - k) := by
    have : i ∈ argsort 0 c := (mem_argsort 0 c).mpr hi
    rw [← hsplit] at this
    exact List.mem_append.mp this
  constructor
  · intro h; exact hmem.resolve_left h
  · intro h hmem'; exact hdisj hmem' h

/-- Under nonnegativity, the full-column descending rank of a nonzero position
coincides with its rank among nonzero entries only (a zero entry can never
outrank a positive one). -/
theorem rankDescNZ_eq_rankDesc {c : List ℚ} (hnn : ∀ x ∈ c, 0 ≤ x) {i : Nat}
    (hi : i < c.length) (hnz : c.getD i 0 ≠ 0) :
    rankDescNZ c i = rankDesc 0 c i := by
  unfold rankDescNZ rankDesc
  congr 1
  apply List.filter_congr
  intro p hp
  simp only [decide_eq_decide]
  constructor
  · intro h; exact h.2
  · intro h
    refine ⟨?_, h⟩
    have hmemc : c.getD i 0 ∈ c := by
      rw [List.getD_eq_getElem c 0 hi]
      exact List.getElem_mem hi
    have hpos : 0 < c.getD i 0 := lt_of_le_of_ne (hnn _ hmemc) (Ne.symm hnz)
    rcases h with h | ⟨h, _⟩
    · exact ne_of_gt (hpos.trans h)
    · rw [← h] at hnz; exact hnz

theorem length_filter_lt_of_strict {l : List Nat} (hl : l.Nodup) {p q : Nat → Bool}
    (himp : ∀ x ∈ l, p x = true → q x = true) {x : Nat} (hx : x ∈ l)
    (hqx : q x = true) (hpx : p x = false) :
    (l.filter p).length < (l.filter q).length := by
  have hxq : x ∈ l.filter q := List.mem_filter.mpr ⟨hx, hqx⟩
  have hsub : l.filter p ⊆ (l.filter q).erase x := by
    intro y hy
    have hyl := List.mem_filter.mp hy
    have hyx : y ≠ x := by
      intro h; rw [h] at hyl; rw [hpx] at hyl; exact Bool.false_ne_true hyl.2
    exact (List.mem_erase_of_ne hyx).mpr (List.mem_filter.mpr ⟨hyl.1, himp y hyl.1 hyl.2⟩)
  have hnp : (l.filter p).Nodup := hl.filter p
  have hle : (l.filter p).length ≤ ((l.filter q).erase x).length :=
    (List.subperm_of_subset hnp hsub).length_le
  have herase : ((l.filter q).erase x).length = (l.filter q).length - 1 :=
    List.length_erase_of_mem hxq
  have hpos : 0 < (l.filter q).length := List.length_pos_of_mem hxq
  omega

theorem getD_map_of_lt {β γ : Type} (f : β → γ) (dβ : β) (dγ : γ) (l : List β) {j : Nat}
    (h : j < l.length) : (l.map f).getD j dγ = f (l.getD j dβ) := by
  rw [List.getD_eq_getElem?_getD, List.getElem?_map, List.getD_eq_getElem?_getD,
    List.getElem?_eq_getElem h]
  simp

theorem denseColTopK_nonzero_iff {k : Nat} (hk : 1 ≤ k) {c : List ℚ} {i : Nat}
    (hi : i < c.length) :
    (denseColTopK k c).getD i 0 ≠ 0 ↔ (c.getD i 0 ≠ 0 ∧ rankDesc 0 c i < k) := by
  rw [denseColTopK_getD hi]
  by_cases hm : i ∈ notTopK k c
  · rw [if_pos hm]
    simp only [ne_eq, not_true_eq_false, false_iff, not_and]
    intro _ hrk
    exact ((notMem_notTopK_iff hk hi).mpr
      ((mem_drop_argsort_iff_rank 0 c hi k).mpr hrk)) hm
  · rw [if_neg hm]
    have hrk : rankDesc 0 c i < k :=
      (mem_drop_argsort_iff_rank 0 c hi k).mp ((notMem_notTopK_iff hk hi).mp hm)
    exact ⟨fun h => ⟨h, hrk⟩, fun h => h.1⟩

theorem denseColTopK_length (k : Nat) (c : List ℚ) :
    (denseColTopK k c).length = c.length := by
  unfold denseColTopK
  rw [List.length_map, List.length_range]

theorem denseColTopK_countNZ_le {k : Nat} (hk : 1 ≤ k) (c : List ℚ) :
    countNZ (denseColTopK k c) ≤ k := by
  unfold countNZ
  rw [denseColTopK_length]
  have hsub : (List.range c.length).filter
      (fun i => decide ((denseColTopK k c).getD i 0 ≠ 0)) ⊆
      (argsort 0 c).drop (c.length - k) := by
    intro i hi
    have hmem := List.mem_filter.mp hi
    have hilt : i < c.length := List.mem_range.mp hmem.1
    have hnz : (denseColTopK k c).getD i 0 ≠ 0 := by simpa using hmem.2
    have := (denseColTopK_nonzero_iff hk hilt).mp hnz
    exact (mem_drop_argsort_iff_rank 0 c hilt k).mpr this.2
  have hnd : ((List.range c.length).filter
      (fun i => decide ((denseColTopK k c).getD i 0 ≠ 0))).Nodup :=
    (List.nodup_range _).filter _
  have hle := (List.subperm_of_subset hnd hsub).length_le
  have hdl : ((argsort 0 c).drop (c.length - k)).length = c.length - (c.length - k) := by
    rw [List.length_drop, argsort_length]
  omega

theorem denseColTopK_retains_all {k : Nat} (hk : 1 ≤ k) {c : List ℚ}
    (hnn : ∀ x ∈ c, 0 ≤ x) (hlt : countNZ c < k) :
    ∀ i < c.length, (denseColTopK k c).getD i 0 = c.getD i 0 := by
  intro i hi
  rw [denseColTopK_getD hi]
  by_cases hz : c.getD i 0 = 0
  · rw [hz]; split <;> rfl
  · rw [if_neg ?_]
    have hrklt : rankDescNZ c i < countNZ c := by
      unfold rankDescNZ countNZ
      apply length_filter_lt_of_strict (List.nodup_range _)
      · intro x _ hx
        simp only [decide_eq_true_eq] at hx ⊢
        exact hx.1
      · exact List.mem_range.mpr hi
      · simpa using hz
      · simp only [decide_eq_false_iff_not, not_and]
        intro _
        rw [keyGt_iff_not_keyLe]
        exact not_not_intro (keyLe_refl 0 c i)
    have hrk : rankDesc 0 c i < k := by
      rw [← rankDescNZ_eq_rankDesc hnn hi hz]; omega
    exact (notMem_notTopK_iff hk hi).mpr ((mem_drop_argsort_iff_rank 0 c hi k).mpr hrk)

theorem sparseTopKIdx_mem_iff {k : Nat} (hk : 1 ≤ k) {vals : List ℚ} {q : Nat}
    (hq : q < vals.length) :
    q ∈ sparseTopKIdx k vals ↔ rankDesc 0 vals q < k := by
  unfold sparseTopKIdx
  rw [if_neg (Nat.one_le_iff_ne_zero.mp hk)]
  exact mem_drop_argsort_iff_rank 0 vals hq k

/-- C1, amended. For every square weight matrix with nonnegative entries and
every `K ≥ 1`:
* dense path — each output column has at most `K` nonzero entries; every output
  entry is either the original value or zero; an entry is retained (nonzero in
  the output) iff it is nonzero in the input and fewer than `K` nonzero entries
  of its column rank above it (larger value, or equal value at larger row
  index); a column with fewer than `K` nonzeros is kept whole;
* sparse path — at most `K` stored entries are kept per column; a stored entry
  is kept iff fewer than `K` stored entries rank above it; every kept entry is
  an original (row, value) pair, numerically unchanged; a column with at most
  `K` stored entries keeps all of them. -/
theorem C1_topK_amended (k : Nat) (hk : 1 ≤ k) (cols : List (List ℚ))
    (hnn : ∀ c ∈ cols, ∀ x ∈ c, 0 ≤ x) (rows : List Nat) (vals : List ℚ) :
    (∀ j, j < cols.length →
      countNZ ((similarityMatrixTopKDense k cols).getD j []) ≤ k
      ∧ (∀ i < (cols.getD j []).length,
          ((similarityMatrixTopKDense k cols).getD j []).getD i 0 = (cols.getD j []).getD i 0
          ∨ ((similarityMatrixTopKDense k cols).getD j []).getD i 0 = 0)
      ∧ (∀ i < (cols.getD j []).length,
          (((similarityMatrixTopKDense k cols).getD j []).getD i 0 ≠ 0
            ↔ ((cols.getD j []).getD i 0 ≠ 0 ∧ rankDescNZ (cols.getD j []) i < k)))
      ∧ (countNZ (cols.getD j []) < k →
          ∀ i < (cols.getD j []).length,
            ((similarityMatrixTopKDense k cols).getD j []).getD i 0 =
              (cols.getD j []).getD i 0))
    ∧ ((sparseColTopK k rows vals).length ≤ k
      ∧ (∀ q < vals.length, (q ∈ sparseTopKIdx k vals ↔ rankDesc 0 vals q < k))
      ∧ (∀ q < vals.length, rankDesc 0 vals q < k →
          (rows.getD q 0, vals.getD q 0) ∈ sparseColTopK k rows vals)
      ∧ (∀ e ∈ sparseColTopK k rows vals,
          ∃ q, q < vals.length ∧ rankDesc 0 vals q < k ∧ e = (rows.getD q 0, vals.getD q 0))
      ∧ (vals.length ≤ k → ∀ q < vals.length, q ∈ sparseTopKIdx k vals)) := by
  have hk0 : k ≠ 0 := Nat.one_le_iff_ne_zero.mp hk
  constructor
  · intro j hj
    have hcol : (similarityMatrixTopKDense k cols).getD j [] =
        denseColTopK k (cols.getD j []) := by
      unfold similarityMatrixTopKDense
      exact getD_map_of_lt _ [] [] cols hj
    have hcmem : cols.getD j [] ∈ cols := by
      rw [List.getD_eq_getElem?_getD, List.getElem?_eq_getElem hj]
      exact List.getElem_mem hj
    have hnnc : ∀ x ∈ cols.getD j [], 0 ≤ x := hnn _ hcmem
    rw [hcol]
    refine ⟨denseColTopK_countNZ_le hk _, ?_, ?_, ?_⟩
    · intro i hi
      rw [denseColTopK_getD hi]
      split
      · exact Or.inr rfl
      · exact Or.inl rfl
    · intro i hi
      rw [denseColTopK_nonzero_iff hk hi]
      constructor
      · intro ⟨h1, h2⟩
        exact ⟨h1, by rw [rankDescNZ_eq_rankDesc hnnc hi h1]; exact h2⟩
      · intro ⟨h1, h2⟩
        exact ⟨h1, by rw [← rankDescNZ_eq_rankDesc hnnc hi h1]; exact h2⟩
    · intro hcnt
      exact denseColTopK_retains_all hk hnnc hcnt
  · refine ⟨?_, ?_, ?_, ?_, ?_⟩
    · unfold sparseColTopK sparseTopKIdx
      rw [List.length_map, if_neg hk0, List.length_drop, argsort_length]
      omega
    · intro q hq
      exact sparseTopKIdx_mem_iff hk hq
    · intro q hq hrk
      unfold sparseColTopK
      exact List.mem_map.mpr ⟨q, (sparseTopKIdx_mem_iff hk hq).mpr hrk, rfl⟩
    · intro e he
      obtain ⟨q, hq, rfl⟩ := List.mem_map.mp he
      have hqlt : q < vals.length := by
        have : q ∈ argsort 0 vals := by
          unfold sparseTopKIdx at hq
          rw [if_neg hk0] at hq
          exact List.drop_subset _ _ hq
        exact (mem_argsort 0 vals).mp this
      exact ⟨q, hqlt, (sparseTopKIdx_mem_iff hk hqlt).mp hq, rfl⟩
    · intro hle q hq
      exact (sparseTopKIdx_mem_iff hk hq).mpr
        (lt_of_lt_of_le (rankDesc_lt_length 0 vals hq) hle)

/-- Witness for C1 (amended) at a concrete input: `K = 1`,
matrix columns `[[2, 1], [0, 3]]` (nonnegative), sparse column entries
rows `[0, 1]`, values `[5, 7]`. -/
theorem C1_topK_amended_witness :
    countNZ ((similarityMatrixTopKDense 1 [[2, 1], [0, 3]]).getD 0 []) ≤ 1 ∧
    (sparseColTopK 1 [0, 1] [5, 7]).length ≤ 1 :=
  ⟨(C1_topK_amended 1 (by decide) [[2, 1], [0, 3]]
      (by intro c hc x hx; fin_cases hc <;> fin_cases hx <;> norm_num)
      [0, 1] [5, 7]).1 0 (by decide) |>.1,
   (C1_topK_amended 1 (by decide) [[2, 1], [0, 3]]
      (by intro c hc x hx; fin_cases hc <;> fin_cases hx <;> norm_num)
      [0, 1] [5, 7]).2.1⟩

/-- Counterexample to C1 as stated. With `K = 0` both paths keep entries
(`[:-0]` discards nothing, `[-0:]` keeps everything), so a column can have
more than `K = 0` nonzeros. Moreover for `K = 1` the dense path on a column
containing a negative entry `[-1, 0]` zeroes *everything* (the zero outranks
the negative value), so the retained entries are not the `K` largest nonzero
values of the column. -/
theorem C1_topK_counterexample :
    similarityMatrixTopKDense 0 [[1]] = [[1]]
    ∧ countNZ ((similarityMatrixTopKDense 0 [[1]]).getD 0 []) = 1
    ∧ sparseColTopK 0 [0] [1] = [(0, 1)]
    ∧ similarityMatrixTopKDense 1 [[-1, 0], [0, 0]] = [[0, 0], [0, 0]]
    ∧ countNZ [(-1 : ℚ), 0] = 1 := by
  decide

/-! ### The `Recommender` evaluation engine (Recommender.py, class `Recommender`)

State fields mirror the instance attributes read by the embedded methods.
`URM_train` rows and the cached per-user profile/relevant-item dictionaries are
modelled densely; the `sparse_weights` flag of the source only selects between
value-identical sparse and dense representations of the same weight matrix, so
a single field `W` (list of rows) suffices. -/

structure RecState where
  urmTrain : List (List ℚ)
  profiles : List (List ℚ)
  W : List (List ℚ)
  normalize : Bool
  trainRelevantItems : List (List Nat)
  testRelevantItems : List (List Nat)
  testRatings : List (List ℚ)
  filterTopPopItemsID : List Nat
  filterTopPopFlag : Bool

/-- Vector-matrix product `p · W` (`user_profile.dot(W)`), `W` given as a list
of rows; the result has one entry per column of `W`. -/
def vecMat (p : List ℚ) (W : List (List ℚ)) : List ℚ :=
  (List.range (W.headD []).length).map
    (fun j => (List.zipWith (fun x row => x * row.getD j 0) p W).sum)

/-- Binarized copy of a profile (`rated.data = np.ones_like(rated.data)`):
stored (nonzero) entries become 1. -/
def binarize (p : List ℚ) : List ℚ := p.map (fun x => if x = 0 then 0 else 1)

/-- Clamp near-zero normalization denominators (`den[np.abs(den) < 1e-6] = 1.0`). -/
def clampDen (x : ℚ) : ℚ := if |x| < 1 / 1000000 then 1 else x

/-- Score vector computed by `recommend`: `user_profile.dot(W)`, optionally
divided entrywise by the clamped denominator `binarized_profile.dot(W)`. -/
def scoresOf (st : RecState) (u : Nat) : List ℚ :=
  if st.normalize then
    List.zipWith (· / ·) (vecMat (st.profiles.getD u []) st.W)
      ((vecMat (binarize (st.profiles.getD u [])) st.W).map clampDen)
  else vecMat (st.profiles.getD u []) st.W

/-- Model of `_filter_seen`: drop the items of the user cached training seen set. -/
def filterSeen (st : RecState) (u : Nat) (ranking : List Nat) : List Nat :=
  ranking.filter (fun i => decide (i ∉ st.trainRelevantItems.getD u []))

/-- Model of `_filter_TopPop`: drop the globally top-popular items. -/
def filterTopPopList (st : RecState) (ranking : List Nat) : List Nat :=
  ranking.filter (fun i => decide (i ∉ st.filterTopPopItemsID))

/-- Python slicing `l[:n]`, where `n = None` keeps the whole list. -/
def takeOpt {β : Type} : Option Nat → List β → List β
  | none, l => l
  | some n, l => l.take n

/-- The full descending ranking `np.flip(scores.argsort())`. -/
def recommendRanked (st : RecState) (u : Nat) : List Nat :=
  (argsort 0 (scoresOf st u)).reverse

/-- Ranking after the optional seen-item filter. -/
def recommendPostSeen (st : RecState) (u : Nat) (es : Bool) : List Nat :=
  if es then filterSeen st u (recommendRanked st u) else recommendRanked st u

/-- Ranking after the optional top-popular filter. -/
def recommendPostPop (st : RecState) (u : Nat) (es ftp : Bool) : List Nat :=
  if ftp then filterTopPopList st (recommendPostSeen st u es)
  else recommendPostSeen st u es

/-- Model of `Recommender.recommend(user_id, n, exclude_seen, filterTopPop)`. -/
def recommend (st : RecState) (u : Nat) (n : Option Nat) (es ftp : Bool) : List Nat :=
  takeOpt n (recommendPostPop st u es ftp)

theorem recommendRanked_pairwise (st : RecState) (u : Nat) :
    (recommendRanked st u).Pairwise
      (fun a b => (scoresOf st u).getD b 0 ≤ (scoresOf st u).getD a 0) := by
  have h1 : (recommendRanked st u).Pairwise
      (fun a b => keyLe 0 (scoresOf st u) b a) := by
    unfold recommendRanked
    rw [List.pairwise_reverse]
    exact argsort_sorted 0 (scoresOf st u)
  refine h1.imp ?_
  intro a b hab
  rcases hab with h | ⟨h, _⟩
  · exact le_of_lt h
  · exact le_of_eq h

theorem recommendRanked_pairwise_tiebreak (st : RecState) (u : Nat) :
    (recommendRanked st u).Pairwise
      (fun a b => (scoresOf st u).getD b 0 < (scoresOf st u).getD a 0
        ∨ ((scoresOf st u).getD a 0 = (scoresOf st u).getD b 0 ∧ b < a)) := by
  have h1 : (recommendRanked st u).Pairwise
      (fun a b => keyLe 0 (scoresOf st u) b a) := by
    unfold recommendRanked
    rw [List.pairwise_reverse]
    exact argsort_sorted 0 (scoresOf st u)
  have h2 : (recommendRanked st u).Nodup := by
    unfold recommendRanked
    exact List.nodup_reverse.mpr (argsort_nodup 0 (scoresOf st u))
  refine (h1.and h2).imp ?_
  intro a b hab
  rcases hab with ⟨hle, hne⟩
  rcases hle with h | ⟨h, hba⟩
  · exact Or.inl h
  · exact Or.inr ⟨h.symm, Nat.lt_of_le_of_ne hba (fun hc => hne hc.symm)⟩

theorem recommend_sublist_ranked (st : RecState) (u : Nat) (n : Option Nat) (es ftp : Bool) :
    (recommend st u n es ftp).Sublist (recommendRanked st u) := by
  have h1 : (recommendPostSeen st u es).Sublist (recommendRanked st u) := by
    unfold recommendPostSeen
    split
    · exact List.filter_sublist _
    · exact List.Sublist.refl _
  have h2 : (recommendPostPop st u es ftp).Sublist (recommendPostSeen st u es) := by
    unfold recommendPostPop
    split
    · exact List.filter_sublist _
    · exact List.Sublist.refl _
  have h3 : (recommend st u n es ftp).Sublist (recommendPostPop st u es ftp) := by
    unfold recommend takeOpt
    split
    · exact List.Sublist.refl _
    · exact List.take_sublist _ _
  exact (h3.trans h2).trans h1

/-- C2, amended. `recommend(user, n=N, exclude_seen, filterTopPop)` returns at
most `N` item indices, returns no item of the user's cached training seen set
when `exclude_seen` is true, and returns the items sorted by *non-increasing*
(weakly descending) score; strict descent fails exactly on tied scores, and
ties are broken by decreasing item index (final conjunct: every later item
either scores strictly less, or scores equally and has a smaller index). -/
theorem C2_recommend_amended (st : RecState) (u : Nat) (N : Nat) (es ftp : Bool) :
    (recommend st u (some N) es ftp).length ≤ N
    ∧ (es = true →
        ∀ i ∈ recommend st u (some N) es ftp, i ∉ st.trainRelevantItems.getD u [])
    ∧ (recommend st u (some N) es ftp).Pairwise
        (fun a b => (scoresOf st u).getD b 0 ≤ (scoresOf st u).getD a 0)
    ∧ (recommend st u (some N) es ftp).Pairwise
        (fun a b => (scoresOf st u).getD b 0 < (scoresOf st u).getD a 0
          ∨ ((scoresOf st u).getD a 0 = (scoresOf st u).getD b 0 ∧ b < a)) := by
  refine ⟨?_, ?_, ?_, ?_⟩
  · unfold recommend takeOpt
    exact List.length_take_le _ _
  · intro hes i hi
    subst hes
    have hi2 : i ∈ recommendPostPop st u true ftp := by
      unfold recommend takeOpt at hi
      exact List.take_subset _ _ hi
    have hi3 : i ∈ recommendPostSeen st u true := by
      unfold recommendPostPop at hi2
      rcases ftp with _ | _
      · simpa using hi2
      · simp only [if_pos] at hi2
        exact (List.filter_sublist _).subset hi2
    unfold recommendPostSeen filterSeen at hi3
    rw [if_pos rfl] at hi3
    have := (List.mem_filter.mp hi3).2
    simpa using this
  · exact List.Pairwise.sublist (recommend_sublist_ranked st u (some N) es ftp)
      (recommendRanked_pairwise st u)
  · exact List.Pairwise.sublist (recommend_sublist_ranked st u (some N) es ftp)
      (recommendRanked_pairwise_tiebreak st u)

/-- Concrete state used by the C2 witness and counterexample: one user whose
profile gives both items the same score (identity-like weight matrix). -/
def exC2 : RecState :=
  { urmTrain := [[1, 1]], profiles := [[1, 1]], W := [[1, 0], [0, 1]],
    normalize := true, trainRelevantItems := [[0]], testRelevantItems := [[]],
    testRatings := [[]], filterTopPopItemsID := [], filterTopPopFlag := false }

/-- Witness for C2 (amended) at a concrete input. -/
theorem C2_recommend_amended_witness :
    (recommend exC2 0 (some 2) true false).length ≤ 2
    ∧ (∀ i ∈ recommend exC2 0 (some 2) true false,
        i ∉ exC2.trainRelevantItems.getD 0 [])
    ∧ (recommend exC2 0 (some 2) true false).Pairwise
        (fun a b => (scoresOf exC2 0).getD b 0 < (scoresOf exC2 0).getD a 0
          ∨ ((scoresOf exC2 0).getD a 0 = (scoresOf exC2 0).getD b 0 ∧ b < a)) :=
  ⟨(C2_recommend_amended exC2 0 2 true false).1,
   (C2_recommend_amended exC2 0 2 true false).2.1 rfl,
   (C2_recommend_amended exC2 0 2 true false).2.2.2⟩

section ConcreteRatEval

attribute [local semireducible] Rat.add Rat.mul Rat.sub Rat.inv Rat.ofScientific

/-- Counterexample to C2 as stated: with tied scores (both items score 1) the
returned ranking `[1, 0]` is not sorted by *strictly* descending score. -/
theorem C2_recommend_counterexample :
    recommend exC2 0 (some 2) false false = [1, 0]
    ∧ (scoresOf exC2 0).getD 0 0 = (scoresOf exC2 0).getD 1 0
    ∧ ¬ (recommend exC2 0 (some 2) false false).Pairwise
        (fun a b => (scoresOf exC2 0).getD b 0 < (scoresOf exC2 0).getD a 0) := by
  decide

end ConcreteRatEval

/-- C10 (confirmed): with `n = None` (`ranking[:None]`), `recommend` returns
the entire filtered ranking: every catalog item surviving the optional
seen-item and top-popular filters appears exactly once — no truncation. -/
theorem C10_recommend_full_ranking (st : RecState) (u : Nat) (es ftp : Bool) (i : Nat)
    (hi : i < (scoresOf st u).length)
    (hseen : es = true → i ∉ st.trainRelevantItems.getD u [])
    (hpop : ftp = true → i ∉ st.filterTopPopItemsID) :
    (recommend st u none es ftp).count i = 1 := by
  have hranknd : (recommendRanked st u).Nodup := by
    unfold recommendRanked
    exact List.nodup_reverse.mpr (argsort_nodup 0 (scoresOf st u))
  have hnodup : (recommend st u none es ftp).Nodup :=
    hranknd.sublist (recommend_sublist_ranked st u none es ftp)
  have hrank : i ∈ recommendRanked st u := by
    unfold recommendRanked
    rw [List.mem_reverse, mem_argsort]
    exact hi
  have hps : i ∈ recommendPostSeen st u es := by
    unfold recommendPostSeen
    rcases es with _ | _
    · simpa using hrank
    · rw [if_pos rfl]
      unfold filterSeen
      exact List.mem_filter.mpr ⟨hrank, by simpa using hseen rfl⟩
  have hpp : i ∈ recommendPostPop st u es ftp := by
    unfold recommendPostPop
    rcases ftp with _ | _
    · simpa using hps
    · rw [if_pos rfl]
      unfold filterTopPopList
      exact List.mem_filter.mpr ⟨hps, by simpa using hpop rfl⟩
  have hre : recommend st u none es ftp = recommendPostPop st u es ftp := rfl
  rw [hre]
  exact List.count_eq_one_of_mem hnodup hpp

/-- Concrete state used by the C10 witness. -/
def exC10 : RecState :=
  { urmTrain := [[1, 0]], profiles := [[1, 0]], W := [[1, 0], [0, 1]],
    normalize := false, trainRelevantItems := [[0]], testRelevantItems := [[]],
    testRatings := [[]], filterTopPopItemsID := [], filterTopPopFlag := false }

/-- Witness for C10 at a concrete input: item 1 is unseen and survives, so it
appears exactly once in the untruncated ranking. -/
theorem C10_recommend_full_ranking_witness :
    (recommend exC10 0 none true false).count 1 = 1 :=
  C10_recommend_full_ranking exC10 0 true false 1 (by decide) (by decide) (by decide)

/-! ### Function `areURMequals` and fast-validation cache management
(Recommender.py, lines 92–99 and 169–222) -/

/-- Shape of a dense-modelled matrix: (number of rows, row width). -/
def matShape (a : List (List ℚ)) : Nat × Nat := (a.length, (a.headD []).length)

/-- Stored-entry count of the elementwise difference `URM1 - URM2` (scipy
arithmetic eliminates cancelled entries, so `.nnz` of the difference counts
exactly the positions where the two matrices differ). -/
def subNNZ (a b : List (List ℚ)) : Nat :=
  (List.zipWith (fun ra rb =>
    ((List.zipWith (fun x y => x - y) ra rb).filter (fun z => decide (z ≠ 0))).length) a b).sum

/-- Model of `areURMequals(URM1, URM2)`: `False` when either argument is `None` or the
shapes differ, otherwise true iff the difference has no nonzero entry. -/
def areURMequals : Option (List (List ℚ)) → Option (List (List ℚ)) → Bool
  | none, _ => false
  | some _, none => false
  | some a, some b => if matShape a = matShape b then subNNZ a b == 0 else false

/-- A dense-modelled matrix is well formed when all rows have the width of the
first row. -/
def IsRectangular (a : List (List ℚ)) : Prop :=
  ∀ row ∈ a, row.length = (a.headD []).length

instance (a : List (List ℚ)) : Decidable (IsRectangular a) := by
  unfold IsRectangular; exact inferInstance

theorem rowDiff_eq_zero_iff :
    ∀ (ra rb : List ℚ), ra.length = rb.length →
      ((((List.zipWith (fun x y => x - y) ra rb).filter
          (fun z => decide (z ≠ 0))).length = 0) ↔ ra = rb) := by
  intro ra
  induction ra with
  | nil =>
    intro rb hlen
    have : rb = [] := List.length_eq_zero.mp hlen.symm
    subst this
    simp
  | cons x ra ih =>
    intro rb hlen
    cases rb with
    | nil => simp at hlen
    | cons y rb =>
      simp only [List.zipWith_cons_cons, List.filter]
      by_cases hxy : x - y = 0
      · have hxy' : x = y := sub_eq_zero.mp hxy
        subst hxy'
        rw [show (decide (x - x ≠ 0)) = false by simp]
        simp only [List.length_cons, Nat.succ.injEq] at hlen
        rw [ih rb hlen]
        simp
      · rw [show (decide (x - y ≠ 0)) = true by simpa using hxy]
        simp only [List.length_cons, Nat.succ_ne_zero, false_iff, List.cons.injEq, not_and]
        intro hxeq
        exact absurd (by rw [hxeq, sub_self]) hxy

theorem subNNZ_eq_zero_iff (w : Nat) :
    ∀ (a b : List (List ℚ)), a.length = b.length →
      (∀ row ∈ a, row.length = w) → (∀ row ∈ b, row.length = w) →
      (subNNZ a b = 0 ↔ a = b) := by
  intro a
  induction a with
  | nil =>
    intro b hlen _ _
    have : b = [] := List.length_eq_zero.mp hlen.symm
    subst this
    simp [subNNZ]
  | cons ra a ih =>
    intro b hlen hwa hwb
    cases b with
    | nil => simp at hlen
    | cons rb b =>
      have hra : ra.length = w := hwa ra (List.mem_cons_self _ _)
      have hrb : rb.length = w := hwb rb (List.mem_cons_self _ _)
      have hlen' : a.length = b.length := by simpa using hlen
      have hwa' : ∀ row ∈ a, row.length = w := fun r hr => hwa r (List.mem_cons_of_mem _ hr)
      have hwb' : ∀ row ∈ b, row.length = w := fun r hr => hwb r (List.mem_cons_of_mem _ hr)
      unfold subNNZ
      rw [List.zipWith_cons_cons, List.sum_cons]
      constructor
      · intro h
        have h1 : ((List.zipWith (fun x y => x - y) ra rb).filter
            (fun z => decide (z ≠ 0))).length = 0 := by omega
        have h2 : subNNZ a b = 0 := by unfold subNNZ; omega
        have e1 : ra = rb := (rowDiff_eq_zero_iff ra rb (hra.trans hrb.symm)).mp h1
        have e2 : a = b := (ih b hlen' hwa' hwb').mp h2
        rw [e1, e2]
      · intro h
        obtain ⟨e1, e2⟩ := List.cons.inj h
        rw [(rowDiff_eq_zero_iff ra rb (hra.trans hrb.symm)).mpr e1]
        have := (ih b hlen' hwa' hwb').mpr e2
        unfold subNNZ at this
        omega

theorem rowDiff_self (r : List ℚ) :
    (List.zipWith (fun x y => x - y) r r).filter (fun z => decide (z ≠ 0)) = [] := by
  induction r with
  | nil => rfl
  | cons x r ih =>
    rw [List.zipWith_cons_cons, List.filter_cons_of_neg (by simp)]
    exact ih

theorem subNNZ_self (a : List (List ℚ)) : subNNZ a a = 0 := by
  unfold subNNZ
  induction a with
  | nil => simp
  | cons ra a ih =>
    rw [List.zipWith_cons_cons, List.sum_cons, rowDiff_self]
    simp [ih]

/-- Structural equality semantics of `areURMequals` on well-formed matrices:
true exactly when the two matrices have the same shape and identical entries,
i.e. are equal. -/
theorem areURMequals_iff_eq {a b : List (List ℚ)} (ha : IsRectangular a)
    (hb : IsRectangular b) : areURMequals (some a) (some b) = true ↔ a = b := by
  have hdef : areURMequals (some a) (some b) =
      (if matShape a = matShape b then subNNZ a b == 0 else false) := rfl
  rw [hdef]
  by_cases hsh : matShape a = matShape b
  · rw [if_pos hsh]
    have hlen : a.length = b.length := congrArg Prod.fst hsh
    have hw : (a.headD []).length = (b.headD []).length := congrArg Prod.snd hsh
    have hwb : ∀ row ∈ b, row.length = (a.headD []).length := fun r hr => (hb r hr).trans hw.symm
    rw [beq_iff_eq]
    exact subNNZ_eq_zero_iff (a.headD []).length a b hlen ha hwb
  · rw [if_neg hsh]
    simp only [Bool.false_eq_true, false_iff]
    intro h
    exact hsh (by rw [h])

/-- Cache-management state of the evaluation engine: the
`FastValidation_initialized` flag, the stored `self.URM_test`, and an
instrumentation counter incremented exactly when `initializeURMDictionary`
runs (the observable "rebuild"). -/
structure EvalState where
  fastValInit : Bool
  urmTest : Option (List (List ℚ))
  rebuildCount : Nat

/-- One call of `evaluateRecommendations(URM_test, ..., fastValidation)`,
restricted to its cache management. `recompute` is decided against the
*previously* stored test matrix before `self.URM_test` is overwritten, and
`initializeURMDictionary` runs iff fast validation is off or `recompute`
holds; it sets `FastValidation_initialized = True`. -/
def evaluateRecommendationsStep (s : EvalState) (test : List (List ℚ))
    (fastValidation : Bool) : EvalState :=
  let recompute : Bool :=
    if s.fastValInit then ! areURMequals s.urmTest (some test) else true
  if fastValidation = false ∨ recompute = true then
    { fastValInit := true, urmTest := some test, rebuildCount := s.rebuildCount + 1 }
  else
    { s with urmTest := some test }

theorem step_rebuild (s : EvalState) (test : List (List ℚ))
    (hre : (if s.fastValInit then ! areURMequals s.urmTest (some test) else true) = true) :
    evaluateRecommendationsStep s test true =
      { fastValInit := true, urmTest := some test, rebuildCount := s.rebuildCount + 1 } := by
  unfold evaluateRecommendationsStep
  exact if_pos (Or.inr hre)

theorem step_skip (s : EvalState) (test : List (List ℚ))
    (hre : ¬ ((if s.fastValInit then ! areURMequals s.urmTest (some test) else true) = true)) :
    evaluateRecommendationsStep s test true = { s with urmTest := some test } := by
  unfold evaluateRecommendationsStep
  refine if_neg ?_
  rintro (h | h)
  · exact absurd h (by simp)
  · exact hre h

/-- C3 (confirmed). With `fastValidation=True`, `initializeURMDictionary`
reruns (the rebuild counter increments) iff the cache has never been built or
the supplied test matrix differs from the previously supplied one; two calls
in a row with a structurally equal test matrix reuse the cache without a
rebuild. On well-formed matrices `areURMequals` is exactly structural equality
(same shape and identical stored pattern/values). -/
theorem C3_fastValidation_cache (s : EvalState) (test test2 : List (List ℚ))
    (h2 : IsRectangular test) (h3 : IsRectangular test2)
    (hprev : ∀ p, s.urmTest = some p → IsRectangular p) :
    ((evaluateRecommendationsStep s test true).rebuildCount = s.rebuildCount + 1
      ↔ (s.fastValInit = false ∨ s.urmTest ≠ some test))
    ∧ (evaluateRecommendationsStep s test true).urmTest = some test
    ∧ (evaluateRecommendationsStep s test true).fastValInit = true
    ∧ (areURMequals (some test) (some test2) = true ↔ test = test2)
    ∧ (test2 = test →
        (evaluateRecommendationsStep (evaluateRecommendationsStep s test true)
            test2 true).rebuildCount
          = (evaluateRecommendationsStep s test true).rebuildCount) := by
  have hcmp : areURMequals s.urmTest (some test) = true ↔ s.urmTest = some test := by
    cases hcase : s.urmTest with
    | none => simp [areURMequals]
    | some p =>
      rw [areURMequals_iff_eq (hprev p hcase) h2]
      simp
  have hself : areURMequals (some test) (some test) = true :=
    (areURMequals_iff_eq h2 h2).mpr rfl
  by_cases hre : (if s.fastValInit = true
      then ! areURMequals s.urmTest (some test) else true) = true
  · have hstep := step_rebuild s test hre
    have hrhs : s.fastValInit = false ∨ s.urmTest ≠ some test := by
      by_cases hinit : s.fastValInit = true
      · rw [if_pos hinit] at hre
        refine Or.inr (fun hurm => ?_)
        rw [hcmp.mpr hurm] at hre
        simp at hre
      · exact Or.inl (by simpa using hinit)
    rw [hstep]
    refine ⟨iff_of_true rfl hrhs, rfl, rfl, areURMequals_iff_eq h2 h3, ?_⟩
    intro h23
    subst h23
    rw [step_skip _ _ (by simp [hself])]
  · have hstep := step_skip s test hre
    have hinit : s.fastValInit = true := by
      by_contra h
      rw [if_neg h] at hre
      exact hre rfl
    have heqb : areURMequals s.urmTest (some test) = true := by
      rw [if_pos hinit] at hre
      simpa using hre
    have hurm : s.urmTest = some test := hcmp.mp heqb
    rw [hstep]
    have hfalse : ¬ (s.fastValInit = false ∨ s.urmTest ≠ some test) := by
      rintro (h | h)
      · rw [hinit] at h
        exact absurd h (by simp)
      · exact h hurm
    refine ⟨iff_of_false (by simp) hfalse, rfl, hinit, areURMequals_iff_eq h2 h3, ?_⟩
    intro h23
    subst h23
    rw [step_skip _ _ (by simp [hinit, hself])]

/-- Witness for C3 at a concrete input: start from an empty cache, evaluate a
1×1 test matrix; the first call rebuilds, the second with an equal matrix does
not. -/
theorem C3_fastValidation_cache_witness :
    ((evaluateRecommendationsStep ⟨false, none, 0⟩ [[1]] true).rebuildCount = 0 + 1
      ↔ ((false : Bool) = false ∨ (none : Option (List (List ℚ))) ≠ some [[1]]))
    ∧ (evaluateRecommendationsStep
        (evaluateRecommendationsStep ⟨false, none, 0⟩ [[1]] true) [[1]] true).rebuildCount
        = (evaluateRecommendationsStep ⟨false, none, 0⟩ [[1]] true).rebuildCount :=
  ⟨(C3_fastValidation_cache ⟨false, none, 0⟩ [[1]] [[1]] (by decide) (by decide)
      (fun p h => absurd h (by simp))).1,
   (C3_fastValidation_cache ⟨false, none, 0⟩ [[1]] [[1]] (by decide) (by decide)
      (fun p h => absurd h (by simp))).2.2.2.2 rfl⟩

/-! ### Method `evaluateRecommendationsSequential` (Recommender.py, lines 237–300)

The six ranking metrics are external collaborators (`.metrics` module),
specified only at their interface; they are passed in as a record of pure
functions with the signatures the loop body calls them at. -/

structure MetricFuns where
  aucF : List Bool → ℚ
  precF : List Bool → ℚ
  recallF : List Bool → List Nat → ℚ
  mapF : List Bool → List Nat → ℚ
  rrF : List Bool → ℚ
  ndcgF : List Nat → List Nat → List ℚ → Option Nat → ℚ

structure MetricSums where
  auc : ℚ
  prec : ℚ
  recl : ℚ
  mapv : ℚ
  mrr : ℚ
  ndcgv : ℚ
deriving DecidableEq

/-- Model of `np.in1d(recommended_items, relevant_items)`. -/
def isRelevantVec (recommended relevant : List Nat) : List Bool :=
  recommended.map (fun i => decide (i ∈ relevant))

/-- Body of the per-user loop of `evaluateRecommendationsSequential`:
`n_eval` is incremented unconditionally, then the six metric values of the
user's recommendation list are accumulated. -/
def seqUserStep (st : RecState) (m : MetricFuns) (atN : Option Nat) (es : Bool)
    (acc : MetricSums × Nat) (u : Nat) : MetricSums × Nat :=
  let relevant := st.testRelevantItems.getD u []
  let recommended := recommend st u atN es st.filterTopPopFlag
  let isRel := isRelevantVec recommended relevant
  (⟨acc.1.auc + m.aucF isRel, acc.1.prec + m.precF isRel,
    acc.1.recl + m.recallF isRel relevant, acc.1.mapv + m.mapF isRel relevant,
    acc.1.mrr + m.rrF isRel,
    acc.1.ndcgv + m.ndcgF recommended relevant (st.testRatings.getD u []) atN⟩,
   acc.2 + 1)

/-- Metric sums and user count accumulated by
`evaluateRecommendationsSequential` over `usersToEvaluate`. -/
def evalSeqAux (st : RecState) (m : MetricFuns) (atN : Option Nat) (es : Bool)
    (users : List Nat) : MetricSums × Nat :=
  users.foldl (seqUserStep st m atN es) (⟨0, 0, 0, 0, 0, 0⟩, 0)

/-- Model of `evaluateRecommendationsSequential`: the accumulated sums, divided by
`n_eval` when it is positive. -/
def evalSeq (st : RecState) (m : MetricFuns) (atN : Option Nat) (es : Bool)
    (users : List Nat) : MetricSums :=
  let r := evalSeqAux st m atN es users
  if 0 < r.2 then
    ⟨r.1.auc / (r.2 : ℚ), r.1.prec / (r.2 : ℚ), r.1.recl / (r.2 : ℚ),
     r.1.mapv / (r.2 : ℚ), r.1.mrr / (r.2 : ℚ), r.1.ndcgv / (r.2 : ℚ)⟩
  else r.1

/-- Sequential evaluation as the claim describes it (modelled from the spec
sentence "average over users with ≥ 1 relevant item"): users whose cached test
relevant-item set is empty contribute neither to the sums nor to the count. -/
def evalSeqClaim (st : RecState) (m : MetricFuns) (atN : Option Nat) (es : Bool)
    (users : List Nat) : MetricSums :=
  evalSeq st m atN es
    (users.filter (fun u => !(st.testRelevantItems.getD u []).isEmpty))

theorem evalSeqAux_snd_foldl (st : RecState) (m : MetricFuns) (atN : Option Nat)
    (es : Bool) :
    ∀ (users : List Nat) (acc : MetricSums × Nat),
      (users.foldl (seqUserStep st m atN es) acc).2 = acc.2 + users.length := by
  intro users
  induction users with
  | nil => intro acc; simp
  | cons u us ih =>
    intro acc
    rw [List.foldl_cons, ih]
    show (seqUserStep st m atN es acc u).2 + us.length = acc.2 + (us.length + 1)
    have hstep : (seqUserStep st m atN es acc u).2 = acc.2 + 1 := rfl
    rw [hstep]
    omega

/-- C9, amended. In the sequential evaluation strategy the final metrics are
the accumulated per-user metric sums divided by `n_eval`, and `n_eval` counts
*every* user in `usersToEvaluate` — a user whose cached test relevant-item set
is empty still contributes 1 to the denominator (`n_eval += 1` is
unconditional). -/
theorem C9_seq_denominator_amended (st : RecState) (m : MetricFuns)
    (atN : Option Nat) (es : Bool) (users : List Nat) :
    (evalSeqAux st m atN es users).2 = users.length
    ∧ (users ≠ [] →
        evalSeq st m atN es users =
          ⟨(evalSeqAux st m atN es users).1.auc / (users.length : ℚ),
           (evalSeqAux st m atN es users).1.prec / (users.length : ℚ),
           (evalSeqAux st m atN es users).1.recl / (users.length : ℚ),
           (evalSeqAux st m atN es users).1.mapv / (users.length : ℚ),
           (evalSeqAux st m atN es users).1.mrr / (users.length : ℚ),
           (evalSeqAux st m atN es users).1.ndcgv / (users.length : ℚ)⟩) := by
  have hsnd : (evalSeqAux st m atN es users).2 = users.length := by
    unfold evalSeqAux
    rw [evalSeqAux_snd_foldl]
    simp
  refine ⟨hsnd, ?_⟩
  intro hne
  unfold evalSeq
  rw [if_pos (by rw [hsnd]; exact List.length_pos_of_ne_nil hne)]
  rw [hsnd]

/-- Concrete state for the C9 counterexample: a single evaluated user whose
test relevant-item set is empty. -/
def exC9 : RecState :=
  { urmTrain := [[]], profiles := [[]], W := [[0]],
    normalize := false, trainRelevantItems := [[]], testRelevantItems := [[]],
    testRatings := [[]], filterTopPopItemsID := [], filterTopPopFlag := false }

/-- Constant metric functions standing in for the external metrics library. -/
def exMetric : MetricFuns :=
  { aucF := fun _ => 1, precF := fun _ => 1, recallF := fun _ _ => 1,
    mapF := fun _ _ => 1, rrF := fun _ => 1, ndcgF := fun _ _ _ _ => 1 }

/-- Witness for C9 (amended) at a concrete input: the single evaluated user
has no relevant items, yet the denominator is 1 and the averages divide by
it. -/
theorem C9_seq_denominator_amended_witness :
    evalSeq exC9 exMetric (some 5) true [0] =
      ⟨(evalSeqAux exC9 exMetric (some 5) true [0]).1.auc / (([0] : List Nat).length : ℚ),
       (evalSeqAux exC9 exMetric (some 5) true [0]).1.prec / (([0] : List Nat).length : ℚ),
       (evalSeqAux exC9 exMetric (some 5) true [0]).1.recl / (([0] : List Nat).length : ℚ),
       (evalSeqAux exC9 exMetric (some 5) true [0]).1.mapv / (([0] : List Nat).length : ℚ),
       (evalSeqAux exC9 exMetric (some 5) true [0]).1.mrr / (([0] : List Nat).length : ℚ),
       (evalSeqAux exC9 exMetric (some 5) true [0]).1.ndcgv / (([0] : List Nat).length : ℚ)⟩ :=
  (C9_seq_denominator_amended exC9 exMetric (some 5) true [0]).2 (by decide)

section ConcreteRatEvalC9

attribute [local semireducible] Rat.add Rat.mul Rat.sub Rat.inv Rat.ofScientific

/-- Counterexample to C9 as stated: a user with an empty relevant set is
counted in the denominator (`n_eval = 1`, metrics averaged over that user),
whereas the claim's reading (denominator restricted to users with at least one
relevant item) yields a different result. -/
theorem C9_seq_counterexample :
    exC9.testRelevantItems.getD 0 [] = []
    ∧ (evalSeqAux exC9 exMetric (some 5) true [0]).2 = 1
    ∧ evalSeq exC9 exMetric (some 5) true [0]
        ≠ evalSeqClaim exC9 exMetric (some 5) true [0] := by
  refine ⟨rfl, rfl, ?_⟩
  decide

end ConcreteRatEvalC9

/-! ### Method `evaluateRecommendationsRandomEquivalent` (Recommender.py, lines 304–399) -/

/-- Raw score vector used by the random-equivalent evaluator
(`user_profile.dot(W)`; this path has no normalization branch). -/
def rawScoresOf (st : RecState) (u : Nat) : List ℚ :=
  vecMat (st.profiles.getD u []) st.W

/-- The precomputed candidate list
`ranking = np.flip(scores.argsort(), axis=0)[0:100]`. -/
def top100 (st : RecState) (u : Nat) : List Nat :=
  ((argsort 0 (rawScoresOf st u)).reverse).take 100

/-- Body of the per-held-out-item loop of
`evaluateRecommendationsRandomEquivalent_oneUser`:
`ranking = ranking[np.in1d(ranking, other_items)]` (the shrunken ranking is
carried over to the next iteration because the loop reassigns `ranking`), then
`item_position = np.where(ranking == test_item)` and
`if len(item_position) > 0: hitCount += 1`. Since `np.where` returns a
one-element tuple of arrays, `len(item_position)` is always 1 and the hit is
counted unconditionally. -/
def rndEqItemStep (acc : List Nat × Nat) (other : List Nat) : List Nat × Nat :=
  (acc.1.filter (fun x => decide (x ∈ other)), acc.2 + 1)

/-- Model of `evaluateRecommendationsRandomEquivalent_oneUser`, the random draws for
the i-th held-out item supplied by `sample i`
(`other_items = random.sample(unseenItems, R); other_items.append(test_item)`).
Returns this user's contribution to the global hit counter. -/
def rndEqOneUser (st : RecState) (u : Nat) (sample : Nat → List Nat) : Nat :=
  (((st.testRelevantItems.getD u []).enum).foldl
    (fun acc p => rndEqItemStep acc (sample p.1 ++ [p.2]))
    (top100 st u, 0)).2

/-- Model of `evaluateRecommendationsRandomEquivalent`: hit counts summed over the
evaluated users; the returned recall is `hitCount / self.URM_test.nnz` (all
other metrics are reported as 0). -/
def rndEqEval (st : RecState) (users : List Nat) (sample : Nat → Nat → List Nat) : ℚ :=
  ((users.map (fun u => rndEqOneUser st u (sample u))).sum : ℚ) /
    ((st.testRelevantItems.map List.length).sum : ℚ)

theorem rndEqItemStep_foldl_snd (f : Nat × Nat → List Nat) :
    ∀ (l : List (Nat × Nat)) (acc : List Nat × Nat),
      (l.foldl (fun acc p => rndEqItemStep acc (f p)) acc).2 = acc.2 + l.length := by
  intro l
  induction l with
  | nil => intro acc; simp
  | cons p ps ih =>
    intro acc
    rw [List.foldl_cons, ih]
    have hstep : (rndEqItemStep acc (f p)).2 = acc.2 + 1 := rfl
    rw [hstep, List.length_cons]
    omega

/-- The hit counter of the random-equivalent evaluator counts *every* held-out
item of the user, regardless of the candidate restriction and of the random
draws: the guard `len(np.where(...)) > 0` is always true. -/
theorem rndEqOneUser_counts_everything (st : RecState) (u : Nat)
    (sample : Nat → List Nat) :
    rndEqOneUser st u sample = (st.testRelevantItems.getD u []).length := by
  unfold rndEqOneUser
  rw [rndEqItemStep_foldl_snd]
  simp [List.enum_length]

/-- Concrete state for C4: 101 items, all scores tied at 0, so the descending
candidate list `top100` is `[100, …, 1]` and the held-out item 0 is *not* in
it. -/
def exC4 : RecState :=
  { urmTrain := [[]], profiles := [[]], W := [List.replicate 101 (0 : ℚ)],
    normalize := false, trainRelevantItems := [[]], testRelevantItems := [[0]],
    testRatings := [[1]], filterTopPopItemsID := [], filterTopPopFlag := false }

section ConcreteRatEvalC4

attribute [local semireducible] Rat.add Rat.mul Rat.sub Rat.inv Rat.ofScientific

/-- C4 is a code bug: at this input the held-out item 0 does not survive the
restriction of the precomputed top-100 candidate list to
`{held-out} ∪ {randoms}` (the restricted list is `[1]`), yet the code counts a
hit and reports recall 1 — `len(np.where(ranking == test_item))` is the length
of a 1-tuple, so the hit test never fails. -/
theorem C4_randomEquivalent_bug :
    (0 ∉ top100 exC4 0)
    ∧ ((top100 exC4 0).filter (fun x => decide (x ∈ ([1] ++ [0]))) = [1])
    ∧ rndEqOneUser exC4 0 (fun _ => [1]) = 1
    ∧ rndEqEval exC4 [0] (fun _ _ => [1]) = 1 := by
  decide

end ConcreteRatEvalC4

/-! ### Method `Recommender.recommendBatch` (Recommender.py, lines 630–658)

Scores of a user block; `-np.inf` is modelled by `⊥` in `WithBot ℚ`. The
ranking step is embedded exactly as written in the source:
`scores_array.argsort(axis=0)` sorts *within each column, across users*, and
`np.fliplr` then reverses each row — this is the behaviour under scrutiny in
C6. Error paths (`raise ValueError`) are `Except.error`. -/

/-- One row of `scores_array[relevant_items != 0] = -np.inf`. -/
def maskRow (scores : List (WithBot ℚ)) (rel : List ℚ) : List (WithBot ℚ) :=
  (List.range scores.length).map
    (fun j => if rel.getD j 0 ≠ 0 then (⊥ : WithBot ℚ) else scores.getD j ⊥)

/-- Seen-item masking applied to the whole block. -/
def maskSeen (sc : List (List (WithBot ℚ))) (rel : List (List ℚ)) :
    List (List (WithBot ℚ)) :=
  (List.range sc.length).map (fun i => maskRow (sc.getD i []) (rel.getD i []))

/-- Model of `scores_array.argsort(axis=0)`: entry (i, j) is the i-th element of the
ascending argsort of column j (taken across the rows); same shape as input. -/
def argsortAxis0 (m : List (List (WithBot ℚ))) : List (List Nat) :=
  (List.range m.length).map (fun i =>
    (List.range (m.headD []).length).map (fun j =>
      (argsort (⊥ : WithBot ℚ) (m.map (fun r => r.getD j ⊥))).getD i 0))

/-- Model of `np.fliplr`: reverse each row. -/
def fliplr (m : List (List Nat)) : List (List Nat) := m.map List.reverse

/-- Model of `Recommender.recommendBatch(users_to_recommend_list, n, exclude_seen,
relevant_items)`. -/
def recommendBatch (st : RecState) (users : List Nat) (n : Option Nat)
    (excludeSeen : Bool) (relevantItems : Option (List (List ℚ))) :
    Except String (List (List Nat)) :=
  let scoresArray : List (List (WithBot ℚ)) :=
    (users.map (fun u => st.urmTrain.getD u [])).map
      (fun p => (vecMat p st.W).map (fun x => (x : WithBot ℚ)))
  if st.normalize then Except.error ("Not implemented")
  else if excludeSeen then
    match relevantItems with
    | none => Except.error ("Exclude seen selected but no relevant items provided")
    | some rel =>
        Except.ok ((fliplr (argsortAxis0 (maskSeen scoresArray rel))).map (takeOpt n))
  else Except.ok ((fliplr (argsortAxis0 scoresArray)).map (takeOpt n))

/-- C8 (confirmed): `recommendBatch` fails explicitly — raising, never
returning a ranking — whenever normalization is enabled on the model, and
whenever seen-item exclusion is requested without a `relevant_items`
argument. -/
theorem C8_recommendBatch_errors (st : RecState) (users : List Nat)
    (n : Option Nat) (es : Bool) (rel : Option (List (List ℚ)))
    (h : st.normalize = true ∨ (es = true ∧ rel = none)) :
    ∃ msg, recommendBatch st users n es rel = Except.error msg := by
  unfold recommendBatch
  by_cases hn : st.normalize = true
  · rw [if_pos hn]
    exact ⟨"Not implemented", rfl⟩
  · rcases h with h | ⟨hes, hrel⟩
    · exact absurd h hn
    · subst hes
      subst hrel
      rw [if_neg hn, if_pos rfl]
      exact ⟨"Exclude seen selected but no relevant items provided", rfl⟩

/-- Concrete state for the C8 witness (normalization enabled). -/
def exC8 : RecState :=
  { urmTrain := [[1]], profiles := [[1]], W := [[1]],
    normalize := true, trainRelevantItems := [[]], testRelevantItems := [[]],
    testRatings := [[]], filterTopPopItemsID := [], filterTopPopFlag := false }

/-- Concrete state for C6 and for the second C8 case (normalization off):
one user whose scores are `[1, 2]`. -/
def exC6 : RecState :=
  { urmTrain := [[1, 0]], profiles := [[1, 0]], W := [[1, 2], [0, 0]],
    normalize := false, trainRelevantItems := [[]], testRelevantItems := [[]],
    testRatings := [[]], filterTopPopItemsID := [], filterTopPopFlag := false }

/-- Witness for C8: both failure modes at concrete inputs. -/
theorem C8_recommendBatch_errors_witness :
    (∃ msg, recommendBatch exC8 [0] none false none = Except.error msg)
    ∧ (∃ msg, recommendBatch exC6 [0] none true none = Except.error msg) :=
  ⟨C8_recommendBatch_errors exC8 [0] none false none (Or.inl rfl),
   C8_recommendBatch_errors exC6 [0] none true none (Or.inr ⟨rfl, rfl⟩)⟩

instance : DecidableEq (Except String (List (List Nat))) := fun a b =>
  match a, b with
  | .ok x, .ok y =>
      if h : x = y then isTrue (by rw [h]) else isFalse (fun hc => h (by injection hc))
  | .error x, .error y =>
      if h : x = y then isTrue (by rw [h]) else isFalse (fun hc => h (by injection hc))
  | .ok _, .error _ => isFalse (fun hc => Except.noConfusion hc)
  | .error _, .ok _ => isFalse (fun hc => Except.noConfusion hc)

section ConcreteRatEvalC6

attribute [local semireducible] Rat.add Rat.mul Rat.sub Rat.inv Rat.ofScientific

/-- C6 is a code bug: `argsort(axis=0)` sorts down the *user* axis and
`fliplr` then reverses along the *item* axis, so the returned rows are not
item rankings at all. For one user with scores `[1, 2]` the code returns
`[[0, 0]]` (row-index garbage), while the user's top-2 item list in
descending score order is `[1, 0]`. -/
theorem C6_recommendBatch_bug :
    recommendBatch exC6 [0] (some 2) false none = Except.ok [[0, 0]]
    ∧ takeOpt (some 2) ((argsort 0 (vecMat [1, 0] exC6.W)).reverse) = [1, 0]
    ∧ ([0, 0] : List Nat) ≠ [1, 0] := by
  decide

end ConcreteRatEvalC6

/-! ### BPR trainer (bpr.py, class `BPRMF_THEANO`) -/

/-- The SGD loop of `BPRMF_THEANO.train`:
`while (z+1)*batch_size < n_sgd_samples: sampleBatch(); train_model(); z += 1`.
Each iteration draws one fresh minibatch and applies one update to `W`, `H`
and `B`; the returned value is the number of iterations. The recursion is
fuelled; fuel `N` suffices for every positive batch size (for
`batch_size = 0` the Python loop would not terminate). -/
def bprLoopFuel : Nat → Nat → Nat → Nat → Nat
  | 0, _, _, z => z
  | fuel + 1, N, B, z =>
      if (z + 1) * B < N then bprLoopFuel fuel N B (z + 1) else z

/-- Number of SGD steps performed by `train(train_data, epochs, batch_size)`,
where `n_sgd_samples = epochs * train_data.nnz`. -/
def trainNumSteps (nnz epochs batchSize : Nat) : Nat :=
  bprLoopFuel (epochs * nnz) (epochs * nnz) batchSize 0

theorem bprLoopFuel_eq (B : Nat) (hB : 1 ≤ B) :
    ∀ (fuel N z : Nat), z ≤ (N - 1) / B → (N - 1) / B - z ≤ fuel →
      bprLoopFuel fuel N B z = (N - 1) / B := by
  intro fuel
  induction fuel with
  | zero =>
    intro N z hz hf
    have : z = (N - 1) / B := by omega
    rw [this]
    rfl
  | succ fuel ih =>
    intro N z hz hf
    have hunf : bprLoopFuel (fuel + 1) N B z =
        if (z + 1) * B < N then bprLoopFuel fuel N B (z + 1) else z := rfl
    rw [hunf]
    by_cases hlt : (z + 1) * B < N
    · rw [if_pos hlt]
      apply ih
      · exact (Nat.le_div_iff_mul_le hB).mpr (by omega)
      · omega
    · rw [if_neg hlt]
      have hge : N ≤ (z + 1) * B := Nat.le_of_not_lt hlt
      have h2 : (N - 1) / B ≤ z := by
        by_contra hcon
        push_neg at hcon
        have h3 : (z + 1) * B ≤ N - 1 := (Nat.le_div_iff_mul_le hB).mp (by omega)
        have h4 : 1 ≤ (N - 1) / B := by omega
        have h5 : 1 * B ≤ N - 1 := (Nat.le_div_iff_mul_le hB).mp h4
        omega
      omega

/-- C5, amended. For every positive batch size `B`, `train` performs exactly
`⌊(epochs·nnz − 1)/B⌋` SGD steps (each drawing one minibatch via negative
sampling and applying one update): this is `⌊epochs·nnz/B⌋` when `B` does not
divide `epochs·nnz`, and one step fewer when it does — the strict guard
`(z+1)*batch_size < n_sgd_samples` skips the final full batch. -/
theorem C5_train_steps_amended (nnz epochs batchSize : Nat) (hB : 1 ≤ batchSize) :
    trainNumSteps nnz epochs batchSize = (epochs * nnz - 1) / batchSize := by
  unfold trainNumSteps
  apply bprLoopFuel_eq batchSize hB
  · exact Nat.zero_le _
  · have := Nat.div_le_self (epochs * nnz - 1) batchSize
    omega

/-- Witness for C5 (amended): 2 epochs over 5 interactions with batch size 3
perform 3 steps (= ⌊9/3⌋). -/
theorem C5_train_steps_amended_witness :
    (1 ≤ 3) ∧ trainNumSteps 5 2 3 = 3 :=
  ⟨by decide, (C5_train_steps_amended 5 2 3 (by decide)).trans (by decide)⟩

/-- Counterexample to C5 as stated: with one epoch, one nonzero interaction
and batch size 1 the claim demands `(1·1)/1 = 1` step, but the loop guard
`(0+1)*1 < 1` is false immediately and the code performs 0 steps. The same
shortfall occurs whenever the batch size divides `epochs·nnz`. -/
theorem C5_train_steps_counterexample :
    trainNumSteps 1 1 1 = 0 ∧ 1 * 1 / 1 = 1 := by
  decide

/-! ### Methods `initializeFastSampling` and `sampleBatch` (bpr.py, lines 232–296)

`URM_train` rows are given by their stored item-index lists
(`URM_train[u].indices`). Random draws are supplied by explicit oracles:
`np.random.choice(arr)` receives a draw index (taken modulo the array length,
`none` on an empty array, where numpy raises), and the negative-item rejection
loop consumes a supplied candidate list, `none` when it is exhausted before an
unseen item appears (the Python loop would keep drawing fresh values). -/

/-- Model of `eligibleUsers`: users with at least one stored training interaction. -/
def eligibleUsers (urm : List (List Nat)) : List Nat :=
  (List.range urm.length).filter (fun u => decide (urm.getD u [] ≠ []))

/-- Model of `np.random.choice(arr)` with the draw `r` supplied. -/
def choiceIdx {β : Type} (l : List β) (r : Nat) : Option β :=
  l.get? (r % l.length)

/-- The negative-item rejection loop
(`while not negItemSelected: neg_item_id = np.random.randint(0, n_items) ...`):
the first supplied candidate outside `seen`. -/
def negSample (seen : List Nat) (draws : List Nat) : Option Nat :=
  draws.find? (fun c => decide (c ∉ seen))

/-- One slot of `sampleBatch`: draw a user from `eligibleUsers`, a positive
item from the user's seen items, and a negative item by rejection. -/
def sampleSlot (urm : List (List Nat)) (ru rp : Nat) (rn : List Nat) :
    Option (Nat × Nat × Nat) := do
  let u ← choiceIdx (eligibleUsers urm) ru
  let i ← choiceIdx (urm.getD u []) rp
  let j ← negSample (urm.getD u []) rn
  pure (u, i, j)

/-- Model of `BPRMF_THEANO.sampleBatch`: one (user, positive, negative) triplet per
supplied draw tuple (the batch size is the number of draw tuples). -/
def sampleBatch (urm : List (List Nat)) :
    List (Nat × Nat × List Nat) → Option (List (Nat × Nat × Nat))
  | [] => some []
  | d :: ds => do
      let t ← sampleSlot urm d.1 d.2.1 d.2.2
      let ts ← sampleBatch urm ds
      pure (t :: ts)

theorem sampleSlot_valid (urm : List (List Nat)) (ru rp : Nat) (rn : List Nat)
    (t : Nat × Nat × Nat) (h : sampleSlot urm ru rp rn = some t) :
    t.1 ∈ eligibleUsers urm ∧ urm.getD t.1 [] ≠ []
      ∧ t.2.1 ∈ urm.getD t.1 [] ∧ t.2.2 ∉ urm.getD t.1 [] := by
  unfold sampleSlot at h
  cases hu : choiceIdx (eligibleUsers urm) ru with
  | none => rw [hu] at h; simp at h
  | some u =>
    rw [hu] at h
    simp only [Option.bind_eq_bind, Option.some_bind] at h
    cases hi : choiceIdx (urm.getD u []) rp with
    | none => rw [hi] at h; simp at h
    | some i =>
      rw [hi] at h
      simp only [Option.bind_eq_bind, Option.some_bind] at h
      cases hj : negSample (urm.getD u []) rn with
      | none => rw [hj] at h; simp at h
      | some j =>
        rw [hj] at h
        simp only [Option.bind_eq_bind, Option.some_bind, Option.pure_def,
          Option.some.injEq] at h
        subst h
        have hmu : u ∈ eligibleUsers urm := List.get?_mem hu
        have hmi : i ∈ urm.getD u [] := List.get?_mem hi
        unfold negSample at hj
        have hmj := List.find?_some hj
        refine ⟨hmu, ?_, hmi, by simpa using hmj⟩
        have := List.mem_filter.mp hmu
        simpa using this.2

/-- C7 (confirmed): every triplet `(u, i, j)` of a successfully produced
batch has `u` drawn from `eligibleUsers` (hence with at least one training
interaction), positive item `i` in `u`'s seen-item set, and negative item `j`
outside it. -/
theorem C7_sampleBatch_valid (urm : List (List Nat))
    (draws : List (Nat × Nat × List Nat)) (batch : List (Nat × Nat × Nat))
    (h : sampleBatch urm draws = some batch) :
    ∀ t ∈ batch, t.1 ∈ eligibleUsers urm ∧ urm.getD t.1 [] ≠ []
      ∧ t.2.1 ∈ urm.getD t.1 [] ∧ t.2.2 ∉ urm.getD t.1 [] := by
  induction draws generalizing batch with
  | nil =>
    unfold sampleBatch at h
    simp only [Option.some.injEq] at h
    subst h
    intro t ht
    exact absurd ht (List.not_mem_nil t)
  | cons d ds ih =>
    unfold sampleBatch at h
    cases ht0 : sampleSlot urm d.1 d.2.1 d.2.2 with
    | none => rw [ht0] at h; simp at h
    | some t0 =>
      rw [ht0] at h
      simp only [Option.bind_eq_bind, Option.some_bind] at h
      cases hts : sampleBatch urm ds with
      | none => rw [hts] at h; simp at h
      | some ts =>
        rw [hts] at h
        simp only [Option.bind_eq_bind, Option.some_bind, Option.pure_def,
          Option.some.injEq] at h
        subst h
        intro t ht
        rcases List.mem_cons.mp ht with rfl | htts
        · exact sampleSlot_valid urm d.1 d.2.1 d.2.2 t ht0
        · exact ih ts hts t htts

/-- Witness for C7 at a concrete input: one eligible user `0` with seen set
`{0}`, negative candidate stream `[1]`. -/
theorem C7_sampleBatch_valid_witness :
    (0 ∈ eligibleUsers [[0]]) ∧ [[0]].getD 0 [] ≠ []
      ∧ (0 ∈ [[0]].getD 0 []) ∧ 1 ∉ [[0]].getD 0 [] :=
  C7_sampleBatch_valid [[0]] [(0, 0, [1])] [(0, 0, 1)] rfl (0, 0, 1) (by decide)

end RecSys
